import Mathlib

/-!
Verification of the core logic of `src/tfs/examples/pretrain_bert_simple.py`
(repository seshganesh/mint).

The file embeds the two functions of the source file that carry the
program's logic — the corpus windower `create_single_file_dataset` and the
checkpoint step resolver `try_get_global_step` — as executable Lean
definitions, together with a model of the learning-rate schedule described
in the specification (its implementation lives in `tfs.train`, which is not
part of the sources provided).  Theorems about these definitions settle the
specification claims.
-/

namespace Mint

/-! ## Corpus windower

`create_single_file_dataset(tokenizer, fname, seq_len)` reads a file,
concatenates the per-line tokenizations into one token stream, and cuts the
stream into windows `[CLS] + interior + [SEP]`.  The tokenizer and file
reading are external collaborators, so the embedding takes the already
concatenated token stream `tokens` and the resolved special token ids
`cls_token`/`sep_token` as parameters.

Python arithmetic notes, reflected below:
* `num_toks = seq_len - 2` is a Python `int`; for `seq_len = 2` the
  expression `len(tokens) // num_toks` raises `ZeroDivisionError`, which the
  embedding returns as `Except.error`.
* For `seq_len < 2`, `num_toks` is negative; `range(0, num_samples,
  num_toks)` with a negative step and a non-negative stop is empty, so the
  Python function returns an empty dataset.  The embedding keeps `seq_len`
  as a natural number and returns `.ok []` in that regime.
* For `seq_len ≥ 3` (so `num_toks ≥ 1`), `range(0, num_samples, num_toks)`
  enumerates `num_samples / num_toks` indices `0, num_toks, 2*num_toks, …`,
  which is `List.range' 0 (num_samples / num_toks) num_toks`, and the slice
  `tokens[i : i + num_toks]` is `(tokens.drop i).take num_toks`.
-/

def create_single_file_dataset (cls_token sep_token : Nat) (tokens : List Nat)
    (seq_len : Nat) : Except String (List (List Nat)) :=
  if seq_len < 2 then
    Except.ok []
  else
    let num_toks := seq_len - 2
    if num_toks = 0 then
      Except.error "ZeroDivisionError: integer division or modulo by zero"
    else
      let num_samples := tokens.length / num_toks * num_toks
      Except.ok ((List.range' 0 (num_samples / num_toks) num_toks).map
        (fun i => [cls_token] ++ (tokens.drop i).take num_toks ++ [sep_token]))

/-- For `seq_len ≥ 3` the windower succeeds and returns the windows built
from the start indices `0, num_toks, …`; the double division
`(len / num_toks * num_toks) / num_toks` collapses to `len / num_toks`. -/
theorem create_eq_ok (cls_token sep_token : Nat) (tokens : List Nat)
    (seq_len : Nat) (h : 3 ≤ seq_len) :
    create_single_file_dataset cls_token sep_token tokens seq_len =
      Except.ok ((List.range' 0 (tokens.length / (seq_len - 2)) (seq_len - 2)).map
        (fun i => [cls_token] ++ (tokens.drop i).take (seq_len - 2) ++ [sep_token])) := by
  have h2 : ¬ seq_len < 2 := by omega
  have h0 : ¬ seq_len - 2 = 0 := by omega
  simp only [create_single_file_dataset, if_neg h2, if_neg h0]
  rw [Nat.mul_div_cancel _ (by omega : 0 < seq_len - 2)]

/-- Every start index produced by the windower leaves room for a full
interior slice: if `i ∈ range' 0 (len / nt) nt` then `i + nt ≤ len`. -/
theorem start_index_bound (len nt : Nat) (i : Nat)
    (hi : i ∈ List.range' 0 (len / nt) nt) : i + nt ≤ len := by
  rw [List.mem_range'] at hi
  obtain ⟨j, hj, rfl⟩ := hi
  have h1 : nt * (j + 1) ≤ nt * (len / nt) := Nat.mul_le_mul_left nt (by omega)
  have h2 : nt * (len / nt) ≤ len := Nat.mul_div_le len nt
  have h3 : nt * (j + 1) = nt * j + nt := by ring
  omega

/-- Concatenating the consecutive interior slices of length `nt` starting at
`s, s + nt, …` recovers the corresponding contiguous segment of the stream. -/
theorem slices_join (tokens : List Nat) (nt : Nat) :
    ∀ (m s : Nat),
      ((List.range' s m nt).map (fun i => (tokens.drop i).take nt)).flatten =
        (tokens.drop s).take (nt * m)
  | 0, s => by simp
  | m + 1, s => by
    rw [List.range'_succ, List.map_cons, List.flatten_cons, slices_join tokens nt m (s + nt)]
    rw [← List.drop_drop, ← List.take_add]
    rw [show nt + nt * m = nt * (m + 1) by ring]

/-- C1: For every `seq_len ≥ 3` and every token stream of length `n`, the
corpus windower returns exactly `n / (seq_len - 2)` windows, each of length
exactly `seq_len`, each beginning with the tokenizer's `[CLS]` id and ending
with its `[SEP]` id. -/
theorem windower_shape (cls_token sep_token : Nat) (tokens : List Nat)
    (seq_len : Nat) (h : 3 ≤ seq_len) :
    ∃ ws, create_single_file_dataset cls_token sep_token tokens seq_len = Except.ok ws ∧
      ws.length = tokens.length / (seq_len - 2) ∧
      ∀ w ∈ ws, w.length = seq_len ∧ w.head? = some cls_token ∧
        w.getLast? = some sep_token := by
  refine ⟨_, create_eq_ok cls_token sep_token tokens seq_len h, by simp, ?_⟩
  intro w hw
  rw [List.mem_map] at hw
  obtain ⟨i, hi, rfl⟩ := hw
  have hbound : i + (seq_len - 2) ≤ tokens.length :=
    start_index_bound tokens.length (seq_len - 2) i hi
  refine ⟨?_, ?_, ?_⟩
  · simp only [List.length_append, List.length_take, List.length_drop,
      List.length_cons, List.length_nil]
    omega
  · simp
  · rw [List.getLast?_concat]

/-- Witness for C1 at a concrete input: a 7-token stream with `seq_len = 5`
yields `7 / 3 = 2` windows of length 5 framed by the special ids. -/
theorem windower_shape_witness :
    3 ≤ 5 ∧
      ∃ ws, create_single_file_dataset 101 102 [1, 2, 3, 4, 5, 6, 7] 5 = Except.ok ws ∧
        ws.length = [1, 2, 3, 4, 5, 6, 7].length / (5 - 2) ∧
        ∀ w ∈ ws, w.length = 5 ∧ w.head? = some 101 ∧ w.getLast? = some 102 :=
  ⟨by decide, windower_shape 101 102 [1, 2, 3, 4, 5, 6, 7] 5 (by decide)⟩

/-- C4: when the token stream is shorter than the interior length
`seq_len - 2` (with `seq_len ≥ 3`), the windower returns an empty corpus
and no error. -/
theorem windower_short_stream (cls_token sep_token : Nat) (tokens : List Nat)
    (seq_len : Nat) (h : 3 ≤ seq_len) (hshort : tokens.length < seq_len - 2) :
    create_single_file_dataset cls_token sep_token tokens seq_len = Except.ok [] := by
  rw [create_eq_ok cls_token sep_token tokens seq_len h]
  rw [Nat.div_eq_of_lt hshort]
  simp

/-- Witness for C4 at a concrete input: two tokens with `seq_len = 5`. -/
theorem windower_short_stream_witness :
    3 ≤ 5 ∧ [1, 2].length < 5 - 2 ∧
      create_single_file_dataset 101 102 [1, 2] 5 = Except.ok [] :=
  ⟨by decide, by decide,
    windower_short_stream 101 102 [1, 2] 5 (by decide) (by decide)⟩

/-- C5: with `interior = seq_len - 2` and `usable = (n / interior) * interior`,
the interior portions of the returned windows, in order, are exactly the
consecutive non-overlapping slices of the stream starting at
`0, interior, 2 * interior, …`, and their concatenation is exactly the first
`usable` tokens, so the trailing `n - usable` tokens appear in no window. -/
theorem windower_slices (cls_token sep_token : Nat) (tokens : List Nat)
    (seq_len : Nat) (h : 3 ≤ seq_len) :
    ∃ ws, create_single_file_dataset cls_token sep_token tokens seq_len = Except.ok ws ∧
      ws.length = tokens.length / (seq_len - 2) ∧
      (∀ k, k < tokens.length / (seq_len - 2) →
        ws[k]? = some ([cls_token] ++
          (tokens.drop (k * (seq_len - 2))).take (seq_len - 2) ++ [sep_token])) ∧
      (ws.map (fun w => (w.drop 1).dropLast)).flatten =
        tokens.take (tokens.length / (seq_len - 2) * (seq_len - 2)) := by
  refine ⟨_, create_eq_ok cls_token sep_token tokens seq_len h, ?_, ?_, ?_⟩
  · simp
  · intro k hk
    rw [List.getElem?_map, List.getElem?_range' 0 (seq_len - 2) hk, Option.map_some']
    rw [Nat.zero_add, Nat.mul_comm (seq_len - 2) k]
  · rw [List.map_map]
    have hstrip : ((fun w => (w.drop 1).dropLast) ∘
        fun i => [cls_token] ++ (tokens.drop i).take (seq_len - 2) ++ [sep_token]) =
        fun i => (tokens.drop i).take (seq_len - 2) := by
      funext i
      simp only [Function.comp_apply, List.cons_append, List.nil_append,
        List.drop_succ_cons, List.drop_zero, List.dropLast_concat]
    rw [hstrip, slices_join tokens (seq_len - 2) (tokens.length / (seq_len - 2)) 0]
    rw [List.drop_zero, Nat.mul_comm]

/-- Witness for C5 at a concrete input: a 7-token stream with `seq_len = 5`
has `interior = 3`, `usable = 6`; the two windows hold slices `[1,2,3]` and
`[4,5,6]` and token `7` is dropped. -/
theorem windower_slices_witness :
    3 ≤ 5 ∧
      ∃ ws, create_single_file_dataset 101 102 [1, 2, 3, 4, 5, 6, 7] 5 = Except.ok ws ∧
        ws.length = [1, 2, 3, 4, 5, 6, 7].length / (5 - 2) ∧
        (∀ k, k < ([1, 2, 3, 4, 5, 6, 7] : List Nat).length / (5 - 2) →
          ws[k]? = some ([101] ++
            (([1, 2, 3, 4, 5, 6, 7] : List Nat).drop (k * (5 - 2))).take (5 - 2) ++ [102])) ∧
        (ws.map (fun w => (w.drop 1).dropLast)).flatten =
          ([1, 2, 3, 4, 5, 6, 7] : List Nat).take
            ([1, 2, 3, 4, 5, 6, 7].length / (5 - 2) * (5 - 2)) :=
  ⟨by decide, windower_slices 101 102 [1, 2, 3, 4, 5, 6, 7] 5 (by decide)⟩

/-- C9: for `seq_len = 2` the interior length `seq_len - 2` is zero and is
used as the divisor in `len(tokens) // num_toks`, so the windower raises
`ZeroDivisionError` on every token stream; the documented no-error boundary
behavior only holds for `seq_len ≥ 3`. -/
theorem windower_seq_len_two_zero_division (cls_token sep_token : Nat)
    (tokens : List Nat) :
    create_single_file_dataset cls_token sep_token tokens 2 =
      Except.error "ZeroDivisionError: integer division or modulo by zero" := by
  rfl

/-! ## Checkpoint step resolver

`try_get_global_step(checkpoint_name)` evaluates
`re.match('(\S+)-step-(\d+).pth', checkpoint_name)` and returns
`int(match[2])` on success, `0` otherwise.  The embedding implements that
specific pattern with Python's leftmost, greedy, backtracking semantics on
`List Char` (ASCII reading of `\S` and `\d`):

* `re.match` anchors at position 0 only; the end is unanchored.
* `(\S+)` greedily consumes the maximal run of non-whitespace characters
  and backtracks one character at a time (`scanFrom` counts the candidate
  group-1 length down from the maximal run length to 1).
* after group 1 the literal `-step-` must follow;
* `(\d+)` greedily consumes the maximal digit run and backtracks down to
  one digit (`tryDigits`);
* the unescaped `.` of the pattern matches any single character except a
  newline, and must be followed by the literal letters `pth` (`dotPthOk`);
  anything after that is ignored.
-/

/-- Python `str` whitespace as tested by `\S`, restricted to ASCII. -/
def isPySpace (c : Char) : Bool :=
  c = ' ' || c = '\t' || c = '\n' || c = '\r' || c = '\x0b' || c = '\x0c'

/-- The literal `-step-` of the pattern. -/
def stepTag : List Char := ['-', 's', 't', 'e', 'p', '-']

/-- The pattern tail `.pth`: one arbitrary non-newline character (the
unescaped dot) followed by the literal letters `pth`. -/
def dotPthOk : List Char → Bool
  | c :: rest => c != '\n' && rest.take 3 == ['p', 't', 'h']
  | [] => false

/-- Backtracking for `(\d+).pth`: starting from the greedy digit-run length,
shrink the group-2 length until `.pth` matches after it; `none` when every
length (down to the mandatory single digit) fails. -/
def tryDigits (t : List Char) : Nat → Option (List Char)
  | 0 => none
  | dLen + 1 =>
    if dotPthOk (t.drop (dLen + 1)) then some (t.take (dLen + 1))
    else tryDigits t dLen

/-- One `(\S+)` backtracking step: with group 1 bound to the first `aLen`
characters, match the literal `-step-` and then `(\d+).pth`. -/
def attemptAt (s : List Char) (aLen : Nat) : Option (List Char) :=
  let r := s.drop aLen
  if r.take 6 = stepTag then
    let t := r.drop 6
    tryDigits t (t.takeWhile Char.isDigit).length
  else none

/-- Greedy `(\S+)`: try the candidate group-1 lengths from `n` down to 1. -/
def scanFrom (s : List Char) : Nat → Option (List Char)
  | 0 => none
  | aLen + 1 =>
    match attemptAt s (aLen + 1) with
    | some d => some d
    | none => scanFrom s aLen

/-- Group 2 of `re.match('(\S+)-step-(\d+).pth', s)`, or `none` when the
pattern does not match at the start of `s`. -/
def reMatchGroup2 (s : List Char) : Option (List Char) :=
  scanFrom s (s.takeWhile (fun c => !isPySpace c)).length

/-- Base-10 value of a digit string, as computed by Python's `int`. -/
def digitsToNat (d : List Char) : Nat :=
  d.foldl (fun acc c => acc * 10 + (c.toNat - 48)) 0

/-- `try_get_global_step`: the global step encoded in a checkpoint name, or
`0` when the pattern does not match. -/
def try_get_global_step (checkpoint_name : List Char) : Nat :=
  match reMatchGroup2 checkpoint_name with
  | some d => digitsToNat d
  | none => 0

/-! ### Resolver lemmas -/

/-- A decimal digit is not whitespace. -/
theorem digit_not_space (c : Char) (h : c.isDigit = true) : isPySpace c = false := by
  simp only [isPySpace, Bool.or_eq_false_iff, decide_eq_false_iff_not]
  refine ⟨⟨⟨⟨⟨?_, ?_⟩, ?_⟩, ?_⟩, ?_⟩, ?_⟩ <;> rintro rfl <;> exact absurd h (by decide)

/-- No character of the literal `-step-` is whitespace. -/
theorem stepTag_not_space : ∀ c ∈ stepTag, isPySpace c = false := by decide

/-- `takeWhile` keeps the whole list when the predicate holds everywhere. -/
theorem takeWhile_all {α : Type} (p : α → Bool) (l : List α) (h : ∀ c ∈ l, p c = true) :
    l.takeWhile p = l := by
  have h2 := @List.takeWhile_append_of_pos α p l [] h
  simpa using h2

/-- When every candidate group-1 length in `(a, n]` fails, the greedy scan
from `n` gives the same result as the scan from `a`. -/
theorem scanFrom_eq_of_fail (s : List Char) :
    ∀ n a, a ≤ n → (∀ m, a < m → m ≤ n → attemptAt s m = none) →
      scanFrom s n = scanFrom s a
  | 0, a, ha, _ => by rw [Nat.le_zero.mp ha]
  | n + 1, a, ha, hfail => by
    by_cases heq : a = n + 1
    · rw [heq]
    · have h1 : attemptAt s (n + 1) = none := hfail (n + 1) (by omega) (Nat.le_refl _)
      have ih := scanFrom_eq_of_fail s n a (by omega)
        (fun m hm1 hm2 => hfail m hm1 (by omega))
      simp only [scanFrom, h1]
      exact ih

/-- On a string of the shape `P ++ -step- ++ D ++ .pth ++ T` (digit group
`D`, no dash in `T`), every candidate group-1 length strictly longer than
`P` fails: past the boundary the only dash is the tag's closing dash, and
it is followed by a digit rather than by `step-`. -/
theorem attempt_fail_right (P D T : List Char)
    (hD : D ≠ []) (hDdig : ∀ c ∈ D, c.isDigit = true) (hTdash : ¬ '-' ∈ T)
    (j : Nat) (hj : 1 ≤ j) :
    attemptAt (P ++ (stepTag ++ (D ++ '.' :: 'p' :: 't' :: 'h' :: T)))
      (P.length + j) = none := by
  have hdrop : (P ++ (stepTag ++ (D ++ '.' :: 'p' :: 't' :: 'h' :: T))).drop (P.length + j)
      = (stepTag ++ (D ++ '.' :: 'p' :: 't' :: 'h' :: T)).drop j := List.drop_append j
  have hcond : ¬ ((stepTag ++ (D ++ '.' :: 'p' :: 't' :: 'h' :: T)).drop j).take 6
      = stepTag := by
    intro h6
    have hQ : (stepTag ++ (D ++ '.' :: 'p' :: 't' :: 'h' :: T)).drop j
        = stepTag ++ ((stepTag ++ (D ++ '.' :: 'p' :: 't' :: 'h' :: T)).drop j).drop 6 := by
      conv_lhs => rw [← List.take_append_drop 6
        ((stepTag ++ (D ++ '.' :: 'p' :: 't' :: 'h' :: T)).drop j), h6]
    rcases Nat.lt_or_ge j 6 with hlt | hge
    · interval_cases j
      · simp [stepTag, List.cons.injEq] at hQ
      · simp [stepTag, List.cons.injEq] at hQ
      · simp [stepTag, List.cons.injEq] at hQ
      · simp [stepTag, List.cons.injEq] at hQ
      · -- j = 5 : the dropped string is `-` followed by the digit group
        obtain ⟨d, D', rfl⟩ : ∃ d D', D = d :: D' := by
          cases D with
          | nil => exact absurd rfl hD
          | cons d D' => exact ⟨d, D', rfl⟩
        simp only [stepTag, List.cons_append, List.nil_append, List.drop_succ_cons,
          List.drop_zero, List.cons.injEq] at hQ
        have hd : d.isDigit = true := hDdig d (by simp)
        rw [hQ.2.1] at hd
        exact absurd hd (by decide)
    · obtain ⟨k, rfl⟩ := Nat.exists_eq_add_of_le hge
      have hdropk : (stepTag ++ (D ++ '.' :: 'p' :: 't' :: 'h' :: T)).drop (6 + k)
          = (D ++ '.' :: 'p' :: 't' :: 'h' :: T).drop k := by
        have := @List.drop_append Char stepTag (D ++ '.' :: 'p' :: 't' :: 'h' :: T) k
        simpa [stepTag] using this
      rw [hdropk] at hQ
      have hmem : '-' ∈ (D ++ '.' :: 'p' :: 't' :: 'h' :: T).drop k := by
        rw [hQ]
        simp [stepTag]
      have hmem2 : '-' ∈ D ++ '.' :: 'p' :: 't' :: 'h' :: T :=
        List.drop_subset k _ hmem
      rcases List.mem_append.mp hmem2 with h | h
      · exact absurd (hDdig '-' h) (by decide)
      · simp only [List.mem_cons] at h
        rcases h with h | h | h | h | h
        · exact absurd h (by decide)
        · exact absurd h (by decide)
        · exact absurd h (by decide)
        · exact absurd h (by decide)
        · exact hTdash h
  simp only [attemptAt, hdrop, if_neg hcond]

/-- With group 1 bound to exactly `P`, the attempt succeeds and captures the
whole digit group `D` (the greedy digit run stops at the separator, and the
separator position matches `.pth`). -/
theorem attempt_at_boundary (P D T : List Char) (hD : D ≠ [])
    (hDdig : ∀ c ∈ D, c.isDigit = true) :
    attemptAt (P ++ (stepTag ++ (D ++ '.' :: 'p' :: 't' :: 'h' :: T))) P.length
      = some D := by
  have hdrop : (P ++ (stepTag ++ (D ++ '.' :: 'p' :: 't' :: 'h' :: T))).drop P.length
      = stepTag ++ (D ++ '.' :: 'p' :: 't' :: 'h' :: T) := List.drop_left _ _
  simp only [attemptAt, hdrop]
  rw [@List.take_left' Char stepTag (D ++ '.' :: 'p' :: 't' :: 'h' :: T) 6 rfl, if_pos rfl,
    @List.drop_left' Char stepTag (D ++ '.' :: 'p' :: 't' :: 'h' :: T) 6 rfl]
  have htw : (D ++ '.' :: 'p' :: 't' :: 'h' :: T).takeWhile Char.isDigit = D := by
    rw [List.takeWhile_append_of_pos hDdig, List.takeWhile_cons_of_neg (by decide)]
    simp
  rw [htw]
  obtain ⟨e, he⟩ : ∃ e, D.length = e + 1 :=
    ⟨D.length - 1, by have := List.length_pos.mpr hD; omega⟩
  rw [he]
  have hdropD : (D ++ '.' :: 'p' :: 't' :: 'h' :: T).drop (e + 1)
      = '.' :: 'p' :: 't' :: 'h' :: T := by
    rw [← he]
    exact List.drop_left _ _
  have htake : (D ++ '.' :: 'p' :: 't' :: 'h' :: T).take (e + 1) = D := by
    rw [← he]
    exact List.take_left _ _
  simp only [tryDigits, hdropD, htake]
  have hok : dotPthOk ('.' :: 'p' :: 't' :: 'h' :: T) = true := rfl
  simp [hok]

/-- The main characterization: on a string consisting of a nonempty
non-whitespace group `P`, the tag `-step-`, a nonempty digit group `D`, the
literal `.pth`, and dash-free non-whitespace trailing text `T`, the resolver
returns the base-10 value of `D`. -/
theorem resolver_decomp_value (P D T : List Char)
    (hP : P ≠ []) (hPns : ∀ c ∈ P, isPySpace c = false)
    (hD : D ≠ []) (hDdig : ∀ c ∈ D, c.isDigit = true)
    (hTns : ∀ c ∈ T, isPySpace c = false) (hTdash : ¬ '-' ∈ T) :
    try_get_global_step (P ++ (stepTag ++ (D ++ '.' :: 'p' :: 't' :: 'h' :: T)))
      = digitsToNat D := by
  have hall : ∀ c ∈ P ++ (stepTag ++ (D ++ '.' :: 'p' :: 't' :: 'h' :: T)),
      (!isPySpace c) = true := by
    intro c hc
    rcases List.mem_append.mp hc with h | h
    · simp [hPns c h]
    rcases List.mem_append.mp h with h | h
    · simp [stepTag_not_space c h]
    rcases List.mem_append.mp h with h | h
    · simp [digit_not_space c (hDdig c h)]
    · simp only [List.mem_cons] at h
      rcases h with rfl | rfl | rfl | rfl | h
      · decide
      · decide
      · decide
      · decide
      · simp [hTns c h]
  have hplen : 0 < P.length := List.length_pos.mpr hP
  have hlen : P.length ≤ (P ++ (stepTag ++ (D ++ '.' :: 'p' :: 't' :: 'h' :: T))).length := by
    simp [List.length_append]
  have hfail : ∀ m, P.length < m →
      m ≤ (P ++ (stepTag ++ (D ++ '.' :: 'p' :: 't' :: 'h' :: T))).length →
      attemptAt (P ++ (stepTag ++ (D ++ '.' :: 'p' :: 't' :: 'h' :: T))) m = none := by
    intro m hm _
    have : m = P.length + (m - P.length) := by omega
    rw [this]
    exact attempt_fail_right P D T hD hDdig hTdash (m - P.length) (by omega)
  have hskip := scanFrom_eq_of_fail (P ++ (stepTag ++ (D ++ '.' :: 'p' :: 't' :: 'h' :: T)))
    (P ++ (stepTag ++ (D ++ '.' :: 'p' :: 't' :: 'h' :: T))).length P.length hlen hfail
  obtain ⟨q, hq⟩ : ∃ q, P.length = q + 1 := ⟨P.length - 1, by omega⟩
  have hboundary := attempt_at_boundary P D T hD hDdig
  have hscan : scanFrom (P ++ (stepTag ++ (D ++ '.' :: 'p' :: 't' :: 'h' :: T)))
      P.length = some D := by
    rw [hq] at hboundary ⊢
    simp only [scanFrom, hboundary]
  rw [try_get_global_step, reMatchGroup2, takeWhile_all _ _ hall, hskip, hscan]

/-- Elements of `l.take i` satisfy `p` when `i` is within the length of
`l.takeWhile p`. -/
theorem take_all_pred {α : Type} (p : α → Bool) (l : List α) (i : Nat)
    (h : i ≤ (l.takeWhile p).length) : ∀ c ∈ l.take i, p c = true := by
  intro c hc
  have hpre : l.take i = (l.takeWhile p).take i := by
    conv_lhs => rw [← List.takeWhile_append_dropWhile p l]
    rw [List.take_append_of_le_length h]
  rw [hpre] at hc
  exact List.mem_takeWhile_imp (List.take_subset i _ hc)

/-- Soundness of the digit backtracking: a successful `tryDigits` within the
greedy digit run exhibits the digit group, the arbitrary non-newline
separator character, and the literal `pth`. -/
theorem tryDigits_sound (t : List Char) :
    ∀ k d, k ≤ (t.takeWhile Char.isDigit).length → tryDigits t k = some d →
      ∃ D c rest, t = D ++ c :: 'p' :: 't' :: 'h' :: rest ∧ d = D ∧ D ≠ [] ∧
        (∀ x ∈ D, x.isDigit = true) ∧ c ≠ '\n'
  | 0, d, _, h => by simp [tryDigits] at h
  | e + 1, d, hk, h => by
    rw [tryDigits] at h
    by_cases hok : dotPthOk (t.drop (e + 1)) = true
    · rw [if_pos hok] at h
      have hd : d = t.take (e + 1) := by
        injection h with h2
        exact h2.symm
      obtain ⟨c, rest0, hdrop⟩ : ∃ c rest0, t.drop (e + 1) = c :: rest0 := by
        cases hE : t.drop (e + 1) with
        | nil => rw [hE] at hok; simp [dotPthOk] at hok
        | cons c r => exact ⟨c, r, rfl⟩
      rw [hdrop] at hok
      simp only [dotPthOk, Bool.and_eq_true, bne_iff_ne, beq_iff_eq] at hok
      obtain ⟨hc, h3⟩ := hok
      obtain ⟨rest, hrest⟩ : ∃ rest, rest0 = 'p' :: 't' :: 'h' :: rest := by
        cases rest0 with
        | nil => simp at h3
        | cons a r1 =>
          cases r1 with
          | nil => simp at h3
          | cons b r2 =>
            cases r2 with
            | nil => simp at h3
            | cons c2 r3 =>
              simp only [List.take_succ_cons, List.take_zero, List.cons.injEq,
                and_true] at h3
              obtain ⟨rfl, rfl, rfl⟩ := h3
              exact ⟨r3, rfl⟩
      have hlen : e + 1 < t.length := by
        by_contra hcon
        have : t.drop (e + 1) = [] := List.drop_eq_nil_of_le (by omega)
        rw [this] at hdrop
        exact absurd hdrop (by simp)
      refine ⟨t.take (e + 1), c, rest, ?_, hd, ?_, take_all_pred _ t (e + 1) hk, hc⟩
      · conv_lhs => rw [← List.take_append_drop (e + 1) t]
        rw [hdrop, hrest]
      · intro hnil
        have h0 : (t.take (e + 1)).length = e + 1 := by
          simp [List.length_take]
          omega
        rw [hnil] at h0
        simp at h0
    · rw [if_neg hok] at h
      exact tryDigits_sound t e d (by omega) h

/-- Soundness of one attempt: success exhibits the `-step-` tag at the
split point followed by a digit group and the `.pth`-shaped tail. -/
theorem attemptAt_sound (s : List Char) (m : Nat) (d : List Char)
    (h : attemptAt s m = some d) :
    ∃ D c rest, s.drop m = stepTag ++ (D ++ c :: 'p' :: 't' :: 'h' :: rest) ∧ d = D ∧
      D ≠ [] ∧ (∀ x ∈ D, x.isDigit = true) ∧ c ≠ '\n' := by
  simp only [attemptAt] at h
  by_cases h6 : (s.drop m).take 6 = stepTag
  · rw [if_pos h6] at h
    obtain ⟨D, c, rest, ht, hd, hne, hdig, hc⟩ :=
      tryDigits_sound ((s.drop m).drop 6) _ d (Nat.le_refl _) h
    refine ⟨D, c, rest, ?_, hd, hne, hdig, hc⟩
    conv_lhs => rw [← List.take_append_drop 6 (s.drop m)]
    rw [h6, ht]
  · rw [if_neg h6] at h
    exact absurd h (by simp)

/-- Soundness of the greedy scan: success comes from some attempt with a
group-1 length between 1 and the scan's starting length. -/
theorem scanFrom_sound (s : List Char) :
    ∀ n d, scanFrom s n = some d → ∃ m, 1 ≤ m ∧ m ≤ n ∧ attemptAt s m = some d
  | 0, d, h => by simp [scanFrom] at h
  | n + 1, d, h => by
    rw [scanFrom] at h
    cases hA : attemptAt s (n + 1) with
    | some d2 =>
      rw [hA] at h
      simp only [Option.some.injEq] at h
      exact ⟨n + 1, by omega, Nat.le_refl _, by rw [hA, h]⟩
    | none =>
      rw [hA] at h
      obtain ⟨m, h1, h2, h3⟩ := scanFrom_sound s n d h
      exact ⟨m, h1, by omega, h3⟩

/-! ### Resolver claims -/

/-- C2 counterexample: `model-step-1500.ckpt` matches the naming convention
`<prefix>-step-<digits>.<ext>` with prefix `model`, digits `1500` and
extension `ckpt`, yet the resolver returns 0, not 1500: the regex requires
the literal letters `pth` after the separator. -/
theorem resolver_ext_cex :
    ("model-step-1500.ckpt".toList : List Char)
        = "model".toList ++ (stepTag ++ ("1500".toList ++ '.' :: "ckpt".toList)) ∧
      ("model".toList : List Char) ≠ [] ∧
      (∀ x ∈ "model".toList, isPySpace x = false) ∧
      ("1500".toList : List Char) ≠ [] ∧
      (∀ x ∈ "1500".toList, x.isDigit = true) ∧
      try_get_global_step "model-step-1500.ckpt".toList = 0 :=
  ⟨by decide, by decide, by decide, by decide, by decide, by decide⟩

/-- C2 (amended): for every string of the form `<prefix>-step-<digits>.pth`
— prefix a nonempty non-whitespace sequence, digits a nonempty base-10
digit sequence, and the extension the literal `pth` required by the regex —
the resolver returns the integer value of the digit group. -/
theorem resolver_pth_value (P D : List Char)
    (hP : P ≠ []) (hPns : ∀ c ∈ P, isPySpace c = false)
    (hD : D ≠ []) (hDdig : ∀ c ∈ D, c.isDigit = true) :
    try_get_global_step (P ++ (stepTag ++ (D ++ ['.', 'p', 't', 'h'])))
      = digitsToNat D :=
  resolver_decomp_value P D [] hP hPns hD hDdig (by simp) (by simp)

/-- Witness for C2: `model-step-1500.pth` resolves to the value of `1500`. -/
theorem resolver_pth_value_witness :
    (("model".toList : List Char) ≠ [] ∧
      (∀ c ∈ "model".toList, isPySpace c = false) ∧
      ("1500".toList : List Char) ≠ [] ∧
      (∀ c ∈ "1500".toList, c.isDigit = true)) ∧
      try_get_global_step ("model".toList ++ (stepTag ++ ("1500".toList ++ ['.', 'p', 't', 'h'])))
        = digitsToNat "1500".toList :=
  ⟨⟨by decide, by decide, by decide, by decide⟩,
    resolver_pth_value "model".toList "1500".toList
      (by decide) (by decide) (by decide) (by decide)⟩

/-- C3 counterexample: `model-step-5Xpth` does not match the naming
convention `<prefix>-step-<digits>.<ext>` — it contains no dot at all — yet
the resolver returns 5 rather than 0, because the unescaped dot of the
regex accepts the `X`. -/
theorem resolver_convention_cex :
    (¬ ∃ A D E, ("model-step-5Xpth".toList : List Char)
        = A ++ (stepTag ++ (D ++ '.' :: E)) ∧ A ≠ [] ∧
        (∀ x ∈ A, isPySpace x = false) ∧ D ≠ [] ∧
        (∀ x ∈ D, x.isDigit = true)) ∧
      try_get_global_step "model-step-5Xpth".toList = 5 := by
  constructor
  · rintro ⟨A, D, E, heq, -, -, -, -⟩
    have hdot : '.' ∈ "model-step-5Xpth".toList := by
      rw [heq]
      simp
    exact absurd hdot (by decide)
  · decide

/-- C3 (amended): whenever the resolver returns a nonzero step, the input
matches the pattern the code actually uses — a nonempty non-whitespace
group, the tag `-step-`, a nonempty digit group, one arbitrary non-newline
character and the literal letters `pth` (trailing text unconstrained) — and
the returned value is the digit group's base-10 value.  Contrapositively,
every string without that shape yields 0, with no error raised. -/
theorem resolver_nonzero_implies_pattern (s : List Char)
    (h : try_get_global_step s ≠ 0) :
    ∃ A D c rest, s = A ++ (stepTag ++ (D ++ c :: 'p' :: 't' :: 'h' :: rest)) ∧
      A ≠ [] ∧ (∀ x ∈ A, isPySpace x = false) ∧ D ≠ [] ∧
      (∀ x ∈ D, x.isDigit = true) ∧ c ≠ '\n' ∧
      try_get_global_step s = digitsToNat D := by
  rw [try_get_global_step] at h ⊢
  cases hM : reMatchGroup2 s with
  | none => rw [hM] at h; simp at h
  | some d =>
    have hM2 := hM
    rw [reMatchGroup2] at hM2
    obtain ⟨m, hm1, hm2, hA⟩ := scanFrom_sound s _ d hM2
    obtain ⟨D, c, rest, hdrop, hd, hne, hdig, hc⟩ := attemptAt_sound s m d hA
    have hsne : s ≠ [] := by
      intro hnil
      rw [hnil] at hdrop
      simp [stepTag] at hdrop
    refine ⟨s.take m, D, c, rest, ?_, ?_, ?_, hne, hdig, hc, by rw [hd]⟩
    · conv_lhs => rw [← List.take_append_drop m s]
      rw [hdrop]
    · intro hnil
      rw [List.take_eq_nil_iff] at hnil
      rcases hnil with h0 | h0
      · omega
      · exact hsne h0
    · intro x hx
      have := take_all_pred (fun c => !isPySpace c) s m hm2 x hx
      simpa using this

/-- Witness for C3: `model-step-1500.pth` resolves to a nonzero step, so it
decomposes along the pattern. -/
theorem resolver_nonzero_implies_pattern_witness :
    try_get_global_step "model-step-1500.pth".toList ≠ 0 ∧
      ∃ A D c rest, ("model-step-1500.pth".toList : List Char)
          = A ++ (stepTag ++ (D ++ c :: 'p' :: 't' :: 'h' :: rest)) ∧
        A ≠ [] ∧ (∀ x ∈ A, isPySpace x = false) ∧ D ≠ [] ∧
        (∀ x ∈ D, x.isDigit = true) ∧ c ≠ '\n' ∧
        try_get_global_step "model-step-1500.pth".toList = digitsToNat D :=
  ⟨by decide, resolver_nonzero_implies_pattern "model-step-1500.pth".toList (by decide)⟩

/-- C6 counterexample: `a-step-7.pth-step-9.pth` has the form
`<prefix>-step-<digits>.pth` (prefix `a`, digits `7`) followed by the
trailing non-whitespace text `-step-9.pth`, yet the resolver returns 9, not
7: the greedy group 1 consumes up to the later `-step-` match introduced by
the trailing text. -/
theorem resolver_trailing_cex :
    ("a-step-7.pth-step-9.pth".toList : List Char)
        = "a".toList ++ (stepTag ++ ("7".toList
            ++ '.' :: 'p' :: 't' :: 'h' :: "-step-9.pth".toList)) ∧
      ("a".toList : List Char) ≠ [] ∧
      (∀ x ∈ "a".toList, isPySpace x = false) ∧
      ("7".toList : List Char) ≠ [] ∧
      (∀ x ∈ "7".toList, x.isDigit = true) ∧
      (∀ x ∈ "-step-9.pth".toList, isPySpace x = false) ∧
      try_get_global_step "a-step-7.pth-step-9.pth".toList = 9 :=
  ⟨by decide, by decide, by decide, by decide, by decide, by decide, by decide⟩

/-- C6 (amended): the match is anchored only at the start of the string:
for every string of the form `<prefix>-step-<digits>.pth` followed by
arbitrary trailing non-whitespace text that contains no dash (so that the
trailing text cannot introduce a later `-step-` match), the resolver still
returns the integer value of the digit group; e.g. `model-step-5.pth.bak`. -/
theorem resolver_trailing_value (P D T : List Char)
    (hP : P ≠ []) (hPns : ∀ c ∈ P, isPySpace c = false)
    (hD : D ≠ []) (hDdig : ∀ c ∈ D, c.isDigit = true)
    (hTns : ∀ c ∈ T, isPySpace c = false) (hTdash : ¬ '-' ∈ T) :
    try_get_global_step (P ++ (stepTag ++ (D ++ '.' :: 'p' :: 't' :: 'h' :: T)))
      = digitsToNat D :=
  resolver_decomp_value P D T hP hPns hD hDdig hTns hTdash

/-- Witness for C6: `model-step-5.pth.bak` still resolves to the value
of `5`. -/
theorem resolver_trailing_value_witness :
    (("model".toList : List Char) ≠ [] ∧
      (∀ c ∈ "model".toList, isPySpace c = false) ∧
      ("5".toList : List Char) ≠ [] ∧
      (∀ c ∈ "5".toList, c.isDigit = true) ∧
      (∀ c ∈ ".bak".toList, isPySpace c = false) ∧
      ¬ '-' ∈ ".bak".toList) ∧
      try_get_global_step ("model".toList ++ (stepTag ++ ("5".toList
          ++ '.' :: 'p' :: 't' :: 'h' :: ".bak".toList)))
        = digitsToNat "5".toList :=
  ⟨⟨by decide, by decide, by decide, by decide, by decide, by decide⟩,
    resolver_trailing_value "model".toList "5".toList ".bak".toList
      (by decide) (by decide) (by decide) (by decide) (by decide) (by decide)⟩

/-- C10: on a checkpoint name with more than one `-step-<digits>` segment
before the `.pth` extension, the resolver returns the digits of the last
such segment: the greedy non-whitespace group 1 consumes all earlier
segments. -/
theorem resolver_last_segment (P D1 D2 : List Char)
    (hP : P ≠ []) (hPns : ∀ c ∈ P, isPySpace c = false)
    (hD1 : D1 ≠ []) (hD1dig : ∀ c ∈ D1, c.isDigit = true)
    (hD2 : D2 ≠ []) (hD2dig : ∀ c ∈ D2, c.isDigit = true) :
    try_get_global_step
        (P ++ (stepTag ++ (D1 ++ (stepTag ++ (D2 ++ ['.', 'p', 't', 'h'])))))
      = digitsToNat D2 := by
  have hns : ∀ c ∈ (P ++ stepTag) ++ D1, isPySpace c = false := by
    intro c hc
    rcases List.mem_append.mp hc with h1 | h1
    · rcases List.mem_append.mp h1 with h2 | h2
      · exact hPns c h2
      · exact stepTag_not_space c h2
    · exact digit_not_space c (hD1dig c h1)
  have h := resolver_decomp_value ((P ++ stepTag) ++ D1) D2 []
    (by simp [hP]) hns hD2 hD2dig (by simp) (by simp)
  rw [← h]
  congr 1
  simp [List.append_assoc]

/-- Witness for C10: `a-step-1-step-2.pth` resolves to the value of the
last segment's digits, `2`. -/
theorem resolver_last_segment_witness :
    (("a".toList : List Char) ≠ [] ∧
      (∀ c ∈ "a".toList, isPySpace c = false) ∧
      ("1".toList : List Char) ≠ [] ∧
      (∀ c ∈ "1".toList, c.isDigit = true) ∧
      ("2".toList : List Char) ≠ [] ∧
      (∀ c ∈ "2".toList, c.isDigit = true)) ∧
      try_get_global_step ("a".toList ++ (stepTag ++ ("1".toList
          ++ (stepTag ++ ("2".toList ++ ['.', 'p', 't', 'h'])))))
        = digitsToNat "2".toList :=
  ⟨⟨by decide, by decide, by decide, by decide, by decide, by decide⟩,
    resolver_last_segment "a".toList "1".toList "2".toList
      (by decide) (by decide) (by decide) (by decide) (by decide) (by decide)⟩

/-! ## Learning-rate schedule (modelled from the spec)

The schedule is implemented by the training loop in `tfs.train`
(`SingleDeviceLMTrainer`), which is not among the provided sources; the
definitions below are modelled from §4.3 of the specification.  Floating
point is idealized as the real numbers. -/

/-- Modelled from the spec: the decay shape selector `decay_type` of the
learning-rate schedule in `tfs.train` (missing from the sources); one of
`cosine` or `linear`. -/
inductive DecayType where
  | cosine
  | linear
deriving DecidableEq

/-- Modelled from the spec: the warmup phase of the schedule in `tfs.train`
(missing from the sources) — the rate ramps linearly from 0 to `lr` as the
progress fraction `f` goes from 0 to `w = warmup_fract`. -/
noncomputable def warmupRate (lr w f : ℝ) : ℝ := lr * (f / w)

/-- Modelled from the spec: the decay phase of the schedule in `tfs.train`
(missing from the sources) — from `lr` at `f = w + p` toward
`lr * alpha_decay` at `f = 1`, with cosine or linear shape. -/
noncomputable def decayRate (d : DecayType) (lr alpha w p f : ℝ) : ℝ :=
  match d with
  | .linear => lr * (1 - (1 - alpha) * ((f - (w + p)) / (1 - (w + p))))
  | .cosine => lr * (alpha + (1 - alpha) *
      ((1 + Real.cos (Real.pi * ((f - (w + p)) / (1 - (w + p))))) / 2))

/-- Modelled from the spec: the full schedule as a function of the progress
fraction `f = global_step / total_steps` — warmup for `f < w`, plateau at
`lr` for `w ≤ f < w + p`, decay afterwards, clamped to `lr * alpha_decay`
for `f ≥ 1` (i.e. at `global_step ≥ total_steps`). -/
noncomputable def schedRate (d : DecayType) (lr alpha w p f : ℝ) : ℝ :=
  if 1 ≤ f then lr * alpha
  else if f < w then warmupRate lr w f
  else if f < w + p then lr
  else decayRate d lr alpha w p f

/-- Modelled from the spec: the learning rate at an integer global step —
the pure function `(global_step, TrainingSchedule) → rate` of §4.3. -/
noncomputable def lrSchedule (d : DecayType) (lr alpha w p : ℝ)
    (total_steps global_step : ℕ) : ℝ :=
  schedRate d lr alpha w p ((global_step : ℝ) / (total_steps : ℝ))

/-- Modelled from the spec: the sequence of learning rates the training
loop consumes over `count` optimizer steps starting at step `start`. -/
noncomputable def lrTrace (d : DecayType) (lr alpha w p : ℝ)
    (total_steps start count : ℕ) : List ℝ :=
  (List.range count).map (fun i => lrSchedule d lr alpha w p total_steps (start + i))

/-! ### Schedule lemmas -/

/-- At the warmup/plateau seam the warmup formula reaches exactly `lr`. -/
theorem warmupRate_at_seam (lr w : ℝ) (hw : w ≠ 0) : warmupRate lr w w = lr := by
  rw [warmupRate, div_self hw, mul_one]

/-- At the plateau/decay seam the decay formula starts exactly at `lr`,
for both decay shapes. -/
theorem decayRate_at_seam (d : DecayType) (lr alpha w p : ℝ) :
    decayRate d lr alpha w p (w + p) = lr := by
  cases d
  · simp only [decayRate]
    rw [sub_self, zero_div, mul_zero, Real.cos_zero]
    ring
  · simp only [decayRate]
    rw [sub_self, zero_div]
    ring

/-- At `f = 1` the decay formula reaches exactly `lr * alpha`, for both
decay shapes, provided the decay phase is nonempty (`w + p ≠ 1`). -/
theorem decayRate_at_end (d : DecayType) (lr alpha w p : ℝ) (h : w + p ≠ 1) :
    decayRate d lr alpha w p 1 = lr * alpha := by
  have hne : 1 - (w + p) ≠ 0 := sub_ne_zero.mpr (Ne.symm h)
  cases d
  · simp only [decayRate]
    rw [div_self hne, mul_one, Real.cos_pi]
    ring
  · simp only [decayRate]
    rw [div_self hne]
    ring

/-- Both decay shapes are continuous functions of the progress fraction. -/
theorem decayRate_continuous (d : DecayType) (lr alpha w p : ℝ) :
    Continuous (decayRate d lr alpha w p) := by
  cases d
  · show Continuous fun f => lr * (alpha + (1 - alpha) *
      ((1 + Real.cos (Real.pi * ((f - (w + p)) / (1 - (w + p))))) / 2))
    fun_prop
  · show Continuous fun f => lr * (1 - (1 - alpha) * ((f - (w + p)) / (1 - (w + p))))
    fun_prop

/-- The warmup formula is a continuous function of the progress fraction. -/
theorem warmupRate_continuous (lr w : ℝ) : Continuous (warmupRate lr w) := by
  show Continuous fun f => lr * (f / w)
  fun_prop

/-! ### Schedule claims -/

/-- C7 counterexample: at the boundary configuration
`warmup_fract + plateau_fract = 1` (here `1/2 + 1/2`, linear decay,
`lr = 1`, `alpha_decay = 0`) the schedule is not continuous at the
plateau/decay phase boundary: the plateau holds the rate at `lr = 1`
arbitrarily close to the boundary while the clamp forces
`lr * alpha_decay = 0` there.  So continuity at the phase boundaries fails
for a valid configuration with `warmup_fract + plateau_fract ≤ 1`. -/
theorem schedule_seam_discontinuous :
    (1 : ℝ) / 2 + 1 / 2 ≤ 1 ∧
      ¬ ContinuousAt (schedRate DecayType.linear 1 0 (1 / 2) (1 / 2))
        ((1 : ℝ) / 2 + 1 / 2) := by
  refine ⟨by norm_num, ?_⟩
  rw [show (1 : ℝ) / 2 + 1 / 2 = 1 by norm_num]
  intro hcont
  have hval : schedRate DecayType.linear 1 0 (1 / 2) (1 / 2) 1 = 0 := by
    rw [schedRate, if_pos le_rfl]
    norm_num
  have htend : Filter.Tendsto (schedRate DecayType.linear 1 0 (1 / 2) (1 / 2))
      (nhdsWithin 1 (Set.Iio 1)) (nhds 0) := by
    have h2 := hcont.tendsto
    rw [hval] at h2
    exact h2.mono_left nhdsWithin_le_nhds
  have hmem : Set.Ioo ((1 : ℝ) / 2) 1 ∈ nhdsWithin (1 : ℝ) (Set.Iio 1) :=
    Ioo_mem_nhdsWithin_Iio (by constructor <;> norm_num)
  have heq : ∀ x ∈ Set.Ioo ((1 : ℝ) / 2) 1,
      schedRate DecayType.linear 1 0 (1 / 2) (1 / 2) x = 1 := by
    intro x hx
    rw [schedRate, if_neg (not_le.mpr hx.2), if_neg (not_lt.mpr (le_of_lt hx.1)),
      if_pos (by rw [show (1 : ℝ) / 2 + 1 / 2 = 1 by norm_num]; exact hx.2)]
  have hev : schedRate DecayType.linear 1 0 (1 / 2) (1 / 2)
      =ᶠ[nhdsWithin 1 (Set.Iio 1)] fun _ => (1 : ℝ) :=
    Filter.eventuallyEq_of_mem hmem heq
  have htend2 : Filter.Tendsto (fun _ : ℝ => (1 : ℝ))
      (nhdsWithin 1 (Set.Iio 1)) (nhds 0) := Filter.Tendsto.congr' hev htend
  have h10 : (1 : ℝ) = 0 := tendsto_nhds_unique tendsto_const_nhds htend2
  norm_num at h10

/-- C7 (amended): for every valid configuration with `0 ≤ warmup_fract`,
`0 ≤ plateau_fract` and `warmup_fract + plateau_fract < 1` (strictly, so
the decay phase is nonempty), and both decay shapes, the schedule is
continuous on its domain of progress fractions `f ≥ 0` — in particular
continuous at the warmup/plateau and plateau/decay phase boundaries,
including the degenerate `warmup_fract = 0` case where the warmup phase is
empty — and for every `global_step ≥ total_steps` (with `total_steps > 0`)
the returned rate is exactly `lr * alpha_decay`.  At
`warmup_fract + plateau_fract = 1` the clamp instead jumps from `lr` to
`lr * alpha_decay` at the end point. -/
theorem schedule_continuous_and_clamped (d : DecayType) (lr alpha w p : ℝ)
    (hw0 : 0 ≤ w) (hp : 0 ≤ p) (hwp : w + p < 1) :
    ContinuousOn (schedRate d lr alpha w p) (Set.Ici 0) ∧
      ∀ total_steps global_step : ℕ, 0 < total_steps →
        total_steps ≤ global_step →
        lrSchedule d lr alpha w p total_steps global_step = lr * alpha := by
  constructor
  · have hg2 : Continuous fun f =>
        if w + p ≤ f then decayRate d lr alpha w p f else lr := by
      refine Continuous.if_le (decayRate_continuous d lr alpha w p)
        continuous_const continuous_const continuous_id ?_
      intro x hx
      rw [← hx]
      exact decayRate_at_seam d lr alpha w p
    rcases eq_or_lt_of_le hw0 with hw | hw
    · -- `warmup_fract = 0`: on `f ≥ 0` the warmup branch is dead and the
      -- schedule agrees with the plateau/decay/clamp function, which is
      -- continuous everywhere.
      subst hw
      have htop : Continuous fun f =>
          if (1 : ℝ) ≤ f then lr * alpha
          else if 0 + p ≤ f then decayRate d lr alpha 0 p f else lr := by
        refine Continuous.if_le continuous_const hg2 continuous_const continuous_id ?_
        intro x hx
        rw [← hx, if_pos (by linarith)]
        exact (decayRate_at_end d lr alpha 0 p (ne_of_lt hwp)).symm
      refine htop.continuousOn.congr ?_
      intro f hf
      have hf0 : ¬ f < 0 := not_lt.mpr (Set.mem_Ici.mp hf)
      show schedRate d lr alpha 0 p f =
        if (1 : ℝ) ≤ f then lr * alpha
        else if 0 + p ≤ f then decayRate d lr alpha 0 p f else lr
      rw [schedRate]
      by_cases h1 : (1 : ℝ) ≤ f
      · rw [if_pos h1, if_pos h1]
      rw [if_neg h1, if_neg h1, if_neg hf0]
      by_cases h3 : f < 0 + p
      · rw [if_pos h3, if_neg (not_le.mpr h3)]
      · rw [if_neg h3, if_pos (not_lt.mp h3)]
    · -- `0 < warmup_fract`: the schedule is continuous on all of `ℝ`.
      have hg1 : Continuous fun f =>
          if w ≤ f then (if w + p ≤ f then decayRate d lr alpha w p f else lr)
          else warmupRate lr w f := by
        refine Continuous.if_le hg2 (warmupRate_continuous lr w)
          continuous_const continuous_id ?_
        intro x hx
        rw [← hx]
        by_cases hple : w + p ≤ w
        · have hp0 : p = 0 := by linarith
          subst hp0
          rw [if_pos hple, warmupRate_at_seam lr w (ne_of_gt hw)]
          have h4 := decayRate_at_seam d lr alpha w 0
          rw [add_zero] at h4
          exact h4
        · rw [if_neg hple, warmupRate_at_seam lr w (ne_of_gt hw)]
      have htop : Continuous fun f =>
          if (1 : ℝ) ≤ f then lr * alpha
          else if w ≤ f then (if w + p ≤ f then decayRate d lr alpha w p f else lr)
          else warmupRate lr w f := by
        refine Continuous.if_le continuous_const hg1 continuous_const continuous_id ?_
        intro x hx
        rw [← hx, if_pos (by linarith), if_pos (le_of_lt hwp)]
        exact (decayRate_at_end d lr alpha w p (ne_of_lt hwp)).symm
      have hrw : schedRate d lr alpha w p = fun f =>
          if (1 : ℝ) ≤ f then lr * alpha
          else if w ≤ f then (if w + p ≤ f then decayRate d lr alpha w p f else lr)
          else warmupRate lr w f := by
        funext f
        rw [schedRate]
        by_cases h1 : (1 : ℝ) ≤ f
        · rw [if_pos h1, if_pos h1]
        rw [if_neg h1, if_neg h1]
        by_cases h2 : f < w
        · rw [if_pos h2, if_neg (not_le.mpr h2)]
        rw [if_neg h2, if_pos (not_lt.mp h2)]
        by_cases h3 : f < w + p
        · rw [if_pos h3, if_neg (not_le.mpr h3)]
        · rw [if_neg h3, if_pos (not_lt.mp h3)]
      rw [hrw]
      exact htop.continuousOn
  · intro total_steps global_step htot hle
    have hf : (1 : ℝ) ≤ (global_step : ℝ) / (total_steps : ℝ) := by
      rw [one_le_div (by exact_mod_cast htot)]
      exact_mod_cast hle
    rw [lrSchedule, schedRate, if_pos hf]

/-- Witness for C7 (amended) at the configuration `linear`, `lr = 1`,
`alpha_decay = 0`, `warmup_fract = 0`, `plateau_fract = 1/2` — exercising
the degenerate zero-warmup case. -/
theorem schedule_continuous_and_clamped_witness :
    ((0 : ℝ) ≤ 0 ∧ (0 : ℝ) ≤ 1 / 2 ∧ (0 : ℝ) + 1 / 2 < 1) ∧
      (ContinuousOn (schedRate DecayType.linear 1 0 0 (1 / 2)) (Set.Ici 0) ∧
        ∀ total_steps global_step : ℕ, 0 < total_steps →
          total_steps ≤ global_step →
          lrSchedule DecayType.linear 1 0 0 (1 / 2) total_steps global_step
            = 1 * 0) :=
  ⟨⟨le_rfl, by norm_num, by norm_num⟩,
    schedule_continuous_and_clamped DecayType.linear 1 0 0 (1 / 2)
      le_rfl (by norm_num) (by norm_num)⟩

/-- C8: the schedule is a pure function of `(global_step, TrainingSchedule)`:
the learning rates a run resumed at `global_step = k` consumes over its next
`n` steps are exactly the rates an uninterrupted run from step 0 consumes at
steps `k, …, k + n - 1`. -/
theorem schedule_resumption (d : DecayType) (lr alpha w p : ℝ)
    (total_steps k n : ℕ) :
    lrTrace d lr alpha w p total_steps k n =
      (lrTrace d lr alpha w p total_steps 0 (k + n)).drop k := by
  apply List.ext_getElem?
  intro i
  rw [lrTrace, lrTrace, List.getElem?_drop, List.getElem?_map, List.getElem?_map]
  by_cases hi : i < n
  · rw [List.getElem?_range hi, List.getElem?_range (by omega : k + i < k + n)]
    simp
  · rw [List.getElem?_eq_none (by simp; omega), List.getElem?_eq_none (by simp; omega)]
    simp

end Mint
